import Mathlib

/-!
Verification development for `giscanner/docwriter.py` of the
gobject-introspection documentation writer.

The file embeds, as executable Lean definitions translated from the Python
source, the pieces of the docstring markup engine that the claims are
about: output escaping, the language → MIME table, the type/symbol
resolvers, the `#TypeName` handler and internal cross-reference rendering,
implicit-link resolution, the grammar compiler (`unmangle_specs` /
`make_regex`), `get_properties`, the token scanner `scan`, and the markup
transducer (`format` / `_process_heading` / the code-block handlers).

Python strings are modelled as `List Char` where character-level reasoning
is needed and as `String` elsewhere; dictionaries are modelled as
association lists; exceptions become `Except`.
-/

set_option autoImplicit false

namespace Docwriter

instance {e a : Type} [DecidableEq e] [DecidableEq a] : DecidableEq (Except e a) :=
  fun x y =>
    match x, y with
    | .error u, .error v =>
        if h : u = v then isTrue (by rw [h])
        else isFalse (by intro hh; cases hh; exact h rfl)
    | .ok u, .ok v =>
        if h : u = v then isTrue (by rw [h])
        else isFalse (by intro hh; cases hh; exact h rfl)
    | .error _, .ok _ => isFalse (by intro hh; cases hh)
    | .ok _, .error _ => isFalse (by intro hh; cases hh)

/-! ## String helpers (Python primitives used by the source) -/

/-- `hasPref p s` : `p` is an initial segment of `s` (Python `str.startswith`
at the character-list level). -/
def hasPref : List Char → List Char → Bool
  | [], _ => true
  | _ :: _, [] => false
  | a :: ps, b :: ss => a = b && hasPref ps ss

/-- Python `str.replace(w, x)`: left-to-right, non-overlapping replacement of
every occurrence of `w` by `x`.  (The source only ever calls it with a
non-empty `w`; for `w = []` this definition is the identity.) -/
def replaceAll (w x : List Char) : List Char → List Char
  | [] => []
  | c :: s =>
    if w ≠ [] ∧ hasPref w (c :: s) then
      x ++ replaceAll w x (List.drop w.length (c :: s))
    else
      c :: replaceAll w x s
termination_by s => s.length
decreasing_by
  · rename_i h
    have hw : w.length ≥ 1 := by
      cases w with
      | nil => exact absurd rfl h.1
      | cons a as => simp
    simp only [List.length_drop, List.length_cons]
    omega
  · simp

/-- Character-wise map-and-concatenate (helper for reasoning about
single-character replacements). -/
def cmap (g : Char → List Char) : List Char → List Char
  | [] => []
  | c :: s => g c ++ cmap g s

/-! ## Output escaping (`DocFormatter.escape`, docwriter.py lines 369-370)

The source delegates to `xml.sax.saxutils.escape`, which performs three
sequential global replacements, `&` first, then `>`, then `<`. -/

/-- `xml.sax.saxutils.escape` as called by `DocFormatter.escape`. -/
def escape (s : List Char) : List Char :=
  replaceAll ['<'] ("&lt;".data)
    (replaceAll ['>'] ("&gt;".data)
      (replaceAll ['&'] ("&amp;".data) s))

/-- The per-character action of `escape` (derived form, see `escape_eq_cmap`). -/
def escChar (c : Char) : List Char :=
  if c = '&' then "&amp;".data
  else if c = '>' then "&gt;".data
  else if c = '<' then "&lt;".data
  else [c]

/-- `structuralFree s` : `s` contains none of the grammar's structural
characters `&`, `<`, `>`. -/
def structuralFree (s : List Char) : Bool :=
  s.all fun c => c ≠ '&' && c ≠ '<' && c ≠ '>'

/-! ## Language → MIME table and the code-fence-with-language handler
(docwriter.py lines 38-58 and 582-587) -/

/-- The fixed `language_mimes` table (docwriter.py lines 38-58). -/
def language_mimes : List (String × String) :=
  [("bash-script", "application/x-shellscript"),
   ("shell", "application/x-shellscript"),
   ("csharp", "text/x-csharp"),
   ("css", "text/css"),
   ("diff", "text/xpatch"),
   ("html", "text/html"),
   ("java", "text/x-java"),
   ("javascript", "application/javascript"),
   ("lisp", "text/x-scheme"),
   ("lua", "text-x-lua"),
   ("c", "text/x-csrc"),
   ("c++", "text/x-c++src"),
   ("pascal", "text/x-pascal"),
   ("perl", "application/x-perl"),
   ("php", "application/x-php"),
   ("python", "text/x-python"),
   ("ruby", "application/x-ruby"),
   ("sql", "text/x-sql"),
   ("yaml", "application/x-yaml")]

/-- `DocFormatter._process_code_start_with_language` (docwriter.py lines
582-587).  `language_mimes[props["language_name"].lower()]` is a plain
dictionary subscript: a language tag absent from the table raises `KeyError`,
modelled as `Except.error ()`.  On success the handler returns the emitted
markup together with the new value (`true`) of `self._processing_code`.
The `if not mime` branch of the source is kept verbatim even though no
table entry is empty. -/
def process_code_start_with_language (language_name : String) :
    Except Unit (String × Bool) :=
  match language_mimes.lookup (String.mk (language_name.data.map Char.toLower)) with
  | none => .error ()
  | some mime =>
      if mime = "" then .ok ("</p><code>", true)
      else .ok ("</p><code mime=\"" ++ mime ++ "\">", true)

/-! ## Type and symbol resolution (`_resolve_type` / `_resolve_symbol`,
docwriter.py lines 451-479)

The namespace-splitting collaborator `Transformer.split_ctype_namespaces` /
`split_csymbol_namespaces` lives in `transformer.py`, which is not part of
the sources; per the spec (§4.4, §7) it yields a list of
`(namespace, local name)` candidates and signals a malformed identifier by
raising `ValueError`.  It is passed in as a function returning
`Except Unit _`, with `.error` standing for the `ValueError` raise. -/

/-- Modelled from the spec: a `NamespaceRef` handle (§3), "queryable by bare
name [and] by C-style qualified symbol"; `ast.py` is not in the sources. -/
structure NamespaceRef (Node : Type) where
  get : String → Option Node
  get_by_symbol : String → Option Node

/-- `DocFormatter._resolve_type` (docwriter.py lines 451-462).  The result
is wrapped in `Except Unit` so that "an exception propagates to the caller"
is representable as `.error`. -/
def resolve_type {Node : Type}
    (split_ctype_namespaces :
      String → Except Unit (List (NamespaceRef Node × String)))
    (ident : String) : Except Unit (Option Node) :=
  match split_ctype_namespaces ident with
  | .error _ => .ok none
  | .ok matches_ =>
      .ok (matches_.foldr
        (fun (p : NamespaceRef Node × String) acc =>
          match p.1.get p.2 with
          | some node => some node
          | none => acc)
        none)

/-- Result of the first `for` loop of `_resolve_symbol`: either an early
`return node`, or the loop finished (in which case the variable `node`
holds `None`, every iteration having failed), or the loop body never ran
and the local variable `node` was never bound. -/
inductive SymLoop (Node : Type) where
  | found (n : Node)
  | ended
  | unbound

/-- First loop of `_resolve_symbol` (docwriter.py lines 469-472). -/
def resolve_symbol_loop1 {Node : Type} (symbol : String) :
    List (NamespaceRef Node × String) → SymLoop Node
  | [] => .unbound
  | (ns, _) :: rest =>
      match ns.get_by_symbol symbol with
      | some n => .found n
      | none =>
          match rest with
          | [] => .ended
          | _ :: _ => resolve_symbol_loop1 symbol rest

/-- `DocFormatter._resolve_symbol` (docwriter.py lines 464-479).  After the
first loop, the source evaluates `if not node:` — when the candidate list
was empty, `node` was never assigned and this raises `UnboundLocalError`,
modelled as `.error ()`. -/
def resolve_symbol {Node : Type}
    (split_csymbol_namespaces :
      String → Except Unit (List (NamespaceRef Node × String)))
    (symbol : String) : Except Unit (Option Node) :=
  match split_csymbol_namespaces symbol with
  | .error _ => .ok none
  | .ok matches_ =>
      match resolve_symbol_loop1 symbol matches_ with
      | .found n => .ok (some n)
      | .unbound => .error ()
      | .ended =>
          .ok (matches_.foldr
            (fun (p : NamespaceRef Node × String) acc =>
              match p.1.get p.2 with
              | some node => some node
              | none => acc)
            none)

/-! ## `#TypeName` handling and internal cross-references
(`_process_type_name`, docwriter.py lines 536-547;
`format_internal_xref`, lines 730-738) -/

/-- Python `ident.rstrip("s")`: remove every trailing `'s'`. -/
def rstrip_s (s : String) : String :=
  String.mk ((s.data.reverse.dropWhile (fun c => c = 's')).reverse)

/-- Modelled from the spec: `xmlwriter.build_xml_tag` (xmlwriter.py is not
in the sources); per §4.5 it renders an element with the given attributes
and, when given, visible text content. -/
def build_xml_tag (tag : String) (attrs : List (String × String))
    (content : Option String) : String :=
  "<" ++ tag ++
    String.join (attrs.map (fun a => " " ++ a.1 ++ "=\"" ++ a.2 ++ "\"")) ++
    (match content with
     | none => "/>"
     | some c => ">" ++ c ++ "</" ++ tag ++ ">")

/-- `DocFormatter.format_internal_xref` (docwriter.py lines 730-738),
with `make_page_id` abstracted as `page_id` (its recursion walks `ast`
structures that are not part of the sources). -/
def format_internal_xref {Node : Type} (page_id : Node → String)
    (node : Node) (attrdict : List (String × String))
    (linkname : Option String) (pluralize : Bool) : String :=
  let attrs := ("xref", page_id node) :: attrdict
  match linkname with
  | some l => build_xml_tag "link" attrs (some l)
  | none =>
      if pluralize then build_xml_tag "link" attrs (some (page_id node ++ "s"))
      else build_xml_tag "link" attrs none

/-- `DocFormatter._process_type_name` (docwriter.py lines 536-547).
`format_xref n plural` stands for `self.format_xref(type_, pluralize=plural)`
(the cross-reference renderer, instantiated in the theorems). -/
def process_type_name {Node : Type} (resolve : String → Option Node)
    (format_xref : Node → Bool → String)
    (matchText ident : String) : String :=
  match resolve ident with
  | some t => format_xref t false
  | none =>
      let singularized := rstrip_s ident
      match resolve singularized with
      | some t => format_xref t true
      | none => matchText

/-- The behaviour claimed for `_process_type_name`: "exactly one trailing
's' is stripped and resolution is retried" (this is the claim's wording,
not the source's; the source uses `rstrip("s")`). -/
def process_type_name_one_strip {Node : Type} (resolve : String → Option Node)
    (format_xref : Node → Bool → String)
    (matchText ident : String) : String :=
  match resolve ident with
  | some t => format_xref t false
  | none =>
      let singularized :=
        if ident.data.getLast? = some 's' then String.mk ident.data.dropLast
        else ident
      match resolve singularized with
      | some t => format_xref t true
      | none => matchText

/-! ## Implicit-link resolution (`_resolve_implicit_links`,
docwriter.py lines 487-507) -/

/-- The delimiters of `re.split(" |\(|\)", match)`: a single space, `(`
or `)`. -/
def isDelim (c : Char) : Bool :=
  c = ' ' || c = '(' || c = ')'

/-- `re.split(" |\(|\)", s)`: split at every delimiter occurrence, keeping
empty fields. -/
def splitWords : List Char → List (List Char)
  | [] => [[]]
  | c :: s =>
      if isDelim c then [] :: splitWords s
      else
        match splitWords s with
        | w :: ws => (c :: w) :: ws
        | [] => [[c]]

/-- The `implicit_links` dictionary built by the word loop of
`_resolve_implicit_links`: empty words are skipped, each remaining word is
resolved as a type first and as a symbol second, and a resolution inserts
`word ↦ format_xref(node, linkname=word)`.  A Python dict assignment with
an existing key overwrites it in place with the identical value, so the
association list keeps the first insertion.  (Python 2 dict iteration
order is unspecified; this model iterates in insertion order.) -/
def links_fold {Node : Type} (rT rS : List Char → Option Node)
    (fX : Node → List Char → List Char)
    (acc : List (List Char × List Char)) :
    List (List Char) → List (List Char × List Char)
  | [] => acc
  | w :: ws =>
      if w = [] then links_fold rT rS fX acc ws
      else
        match rT w with
        | some t =>
            links_fold rT rS fX
              (if (acc.lookup w).isSome then acc else acc ++ [(w, fX t w)]) ws
        | none =>
            match rS w with
            | some n =>
                links_fold rT rS fX
                  (if (acc.lookup w).isSome then acc else acc ++ [(w, fX n w)]) ws
            | none => links_fold rT rS fX acc ws

/-- `DocFormatter._resolve_implicit_links` (docwriter.py lines 487-507).
`flag` is `self.resolve_implicit_links`; `rT`/`rS` are `_resolve_type` /
`_resolve_symbol` restricted to their successful results; `fX n w` is
`self.format_xref(n, linkname=w)`.  The final loop performs
`match = match.replace(word, xref)` for every dictionary entry. -/
def resolve_implicit_links {Node : Type} (flag : Bool)
    (rT rS : List Char → Option Node)
    (fX : Node → List Char → List Char) (text : List Char) : List Char :=
  let m := escape text
  if flag = false then m
  else
    let links := links_fold rT rS fX [] (splitWords m)
    links.foldl (fun acc p => replaceAll p.1 p.2 acc) m

/-- Substitution of one word as the claim describes it: a word that
resolves is replaced by its cross-reference, any other word is kept. -/
def claim_subst_word {Node : Type} (rT rS : List Char → Option Node)
    (fX : Node → List Char → List Char) (w : List Char) : List Char :=
  if w = [] then []
  else
    match rT w with
    | some t => fX t w
    | none =>
        match rS w with
        | some n => fX n w
        | none => w

/-- Word-at-a-time walk for `claim_subst`: `acc` holds the reversed
characters of the word being read. -/
def claim_subst_go {Node : Type} (rT rS : List Char → Option Node)
    (fX : Node → List Char → List Char) (acc : List Char) :
    List Char → List Char
  | [] => claim_subst_word rT rS fX acc.reverse
  | c :: s =>
      if isDelim c then
        claim_subst_word rT rS fX acc.reverse ++
          c :: claim_subst_go rT rS fX [] s
      else claim_subst_go rT rS fX (c :: acc) s

/-- The behaviour the claim describes for `_resolve_implicit_links`: each
space/parenthesis-delimited word is substituted independently, at its own
position, delimiters kept.  (This is the claim's wording, not the
source's.) -/
def claim_subst {Node : Type} (rT rS : List Char → Option Node)
    (fX : Node → List Char → List Char) (s : List Char) : List Char :=
  claim_subst_go rT rS fX [] s

/-- The claim's version of `_resolve_implicit_links`. -/
def claim_implicit_links {Node : Type} (flag : Bool)
    (rT rS : List Char → Option Node)
    (fX : Node → List Char → List Char) (text : List Char) : List Char :=
  let m := escape text
  if flag = false then m else claim_subst rT rS fX m

/-! ## The grammar compiler (`TemplatedScanner.unmangle_specs` /
`make_regex`, docwriter.py lines 165-198) and the `DocstringScanner`
spec list (lines 231-250) -/

/-- The `DocstringScanner` specs (docwriter.py lines 231-250), verbatim:
pairs of spec name and raw pattern, `<<child>>` / `<<alias:child>>`
placeholders included.  A leading `!` marks a private spec. -/
def docstring_specs : List (String × String) :=
  [("!alpha", "[a-zA-Z0-9_]+"),
   ("!alpha_dash", "[a-zA-Z0-9_-]+"),
   ("!anything", ".*"),
   ("note", "\\n+\\>\\s*<<note_contents:anything>>\\s*\\n"),
   ("new_paragraph", "\\n\\n"),
   ("new_line", "\\n"),
   ("code_start_with_language",
     "\\|\\[\\<!\\-\\-\\s*language\\s*\\=\\s*\\\"<<language_name:alpha>>\\\"\\s*\\-\\-\\>"),
   ("code_start", "\\|\\["),
   ("code_end", "\\]\\|"),
   ("property", "#<<type_name:alpha>>:(<<property_name:alpha_dash>>)"),
   ("signal", "#<<type_name:alpha>>::(<<signal_name:alpha_dash>>)"),
   ("type_name", "#(<<type_name:alpha>>)"),
   ("enum_value", "%(<<member_name:alpha>>)"),
   ("parameter", "@<<param_name:alpha>>"),
   ("function_call", "<<symbol_name:alpha>>\\(\\)"),
   ("include", "\x7b\x7b\\s*<<include_name:anything>>\\s*\x7d\x7d"),
   ("heading", "#+\\s+<<heading:anything>>")]

/-- A character admitted inside a `<<...>>` placeholder by the mangling
regex `<<([a-zA-Z_:]+)>>`. -/
def isSpecNameChar (c : Char) : Bool :=
  ('a' ≤ c && c ≤ 'z') || ('A' ≤ c && c ≤ 'Z') || c = '_' || c = ':'

/-- After an opening `<<`, read the placeholder body and the closing `>>`.
Placeholder characters exclude `>`, so the greedy run of the mangling
regex is forced. -/
def readPlaceholderName (s : List Char) :
    Option (List Char × List Char) :=
  let content := s.takeWhile isSpecNameChar
  if content = [] then none
  else
    match s.dropWhile isSpecNameChar with
    | '>' :: '>' :: rest => some (content, rest)
    | _ => none

/-- `child_spec_name.split(':', 1)`: an optional alias before the first
`:`, and the referenced child spec name. -/
def splitColon (content : List Char) : Option (List Char) × List Char :=
  if content.contains ':' then
    (some (content.takeWhile (fun c => c ≠ ':')),
     (content.dropWhile (fun c => c ≠ ':')).tail)
  else (none, content)

/-- `specdict[child_spec_name]`.  For the concrete `docstring_specs` every
placeholder resolves; an unresolved name (a `KeyError` in Python) yields
`""` here and is unreachable on the data this file uses. -/
def lookupSpec (specdict : List (String × String)) (nm : List Char) : String :=
  match specdict.lookup (String.mk nm) with
  | some sp => sp
  | none => ""

/-- The substitution pass of `TemplatedScanner.unmangle_specs.unmangle`
(docwriter.py lines 174-191): replace every `<<child>>` by the unnamed
expansion of `child`, and every `<<alias:child>>` inside the top-level
spec `name` by `(?P<name_alias>expansion)`.  `fuel` only forces
termination; it is never exhausted on the concrete grammar. -/
def unmangleChars (specdict : List (String × String)) :
    Nat → Option String → List Char → List Char
  | 0, _, s => s
  | _ + 1, _, [] => []
  | fuel + 1, name, '<' :: '<' :: s =>
      (match readPlaceholderName s with
       | some (content, rest) =>
           let ac := splitColon content
           let unmangled :=
             unmangleChars specdict fuel none (lookupSpec specdict ac.2).data
           (match ac.1, name with
            | some al, some nm =>
                ("(?P<" ++ nm ++ "_" ++ String.mk al ++ ">").data ++
                  unmangled ++ [')']
            | _, _ => unmangled) ++
             unmangleChars specdict fuel name rest
       | none => '<' :: unmangleChars specdict fuel name ('<' :: s))
  | fuel + 1, name, c :: s => c :: unmangleChars specdict fuel name s

/-- `TemplatedScanner.unmangle_specs` (docwriter.py lines 170-193):
`specdict` maps `!`-stripped names to raw patterns; every spec is
unmangled under its own (unstripped) name. -/
def unmangle_specs (specs : List (String × String)) : List (String × String) :=
  let specdict := specs.map
    (fun p => (String.mk (p.1.data.dropWhile (fun c => c = '!')), p.2))
  specs.map
    (fun p => (p.1, String.mk (unmangleChars specdict 1000 (some p.1) p.2.data)))

/-- `TemplatedScanner.make_regex` (docwriter.py lines 195-198): the ordered
alternation of all non-private specs, each wrapped in a named group. -/
def make_regex (specs : List (String × String)) : String :=
  String.intercalate "|"
    ((specs.filter (fun p => !(hasPref "!".data p.1.data))).map
      (fun p => "(?P<" ++ p.1 ++ ">" ++ p.2 ++ ")"))

/-- The compiled `DocstringScanner` pattern. -/
def docstring_regex : String :=
  make_regex (unmangle_specs docstring_specs)

/-- Collect the named-group names `(?P<name>` of a pattern, in textual
order. -/
def group_names_aux : Nat → List Char → List String
  | 0, _ => []
  | _ + 1, [] => []
  | fuel + 1, '(' :: '?' :: 'P' :: '<' :: rest =>
      String.mk (rest.takeWhile (fun c => c ≠ '>')) ::
        group_names_aux fuel (rest.dropWhile (fun c => c ≠ '>'))
  | fuel + 1, _ :: rest => group_names_aux fuel rest

def group_names (s : List Char) : List String :=
  group_names_aux (s.length + 1) s

/-- Every named group of the compiled docstring grammar, in regex order.
`re` exposes exactly these as keys of `match.groupdict()`. -/
def docstring_group_names : List String :=
  group_names docstring_regex.data

/-! ## `TemplatedScanner.get_properties` (docwriter.py lines 200-208) and
`TemplatedScanner.scan` (lines 210-226) -/

/-- `TemplatedScanner.get_properties`: start from the winning group's own
entry, then collect every other groupdict entry whose key starts with
`name ++ "_"`, stripped of that prefix.  `match.groupdict()` maps every
named group of the whole pattern, with `None` (here `none`) for groups
that did not participate in the match; it is modelled as an association
list in pattern order (Python 2 dict iteration order is unspecified). -/
def get_properties (name : String) (gd : List (String × Option String)) :
    List (String × Option String) :=
  let pref := name ++ "_"
  (name, (gd.lookup name).getD none) ::
    ((gd.filter (fun p => p.1 ≠ name)).filter
        (fun p => hasPref pref.data p.1.data)).map
      (fun p => (String.mk (p.1.data.drop pref.data.length), p.2))

/-- A `re` match object, reduced to the fields `scan` consumes: span,
`lastgroup` (the winning top-level alternative) and `groupdict()`. -/
structure ReMatch where
  mstart : Nat
  mend : Nat
  lastgroup : String
  groupdict : List (String × Option String)

/-- A scanner token: kind, matched text, optional properties. -/
def ScanToken : Type :=
  String × List Char × Option (List (String × Option String))

/-- `TemplatedScanner.scan` (docwriter.py lines 210-226), parameterised by
the search function `srch pos = self.regex.search(text, pos)`.  The
matched text `match.group(0)` is the slice `text[m.start():m.end()]`.
`fuel` bounds the loop; `text.length + 1` suffices whenever every match
is non-empty (see `ValidSearch`). -/
def scan_aux (text : List Char) (srch : Nat → Option ReMatch) :
    Nat → Nat → List ScanToken
  | 0, _ => []
  | fuel + 1, pos =>
      match srch pos with
      | none =>
          if pos < text.length then [("other", text.drop pos, none)] else []
      | some m =>
          (if pos < m.mstart then
            [("other", (text.drop pos).take (m.mstart - pos), none)]
          else []) ++
          (m.lastgroup, (text.drop m.mstart).take (m.mend - m.mstart),
            some (get_properties m.lastgroup m.groupdict)) ::
          scan_aux text srch fuel m.mend

def scan (text : List Char) (srch : Nat → Option ReMatch) : List ScanToken :=
  scan_aux text srch (text.length + 1) 0

/-- Soundness of a search function for `text`: any reported match starts
at or after the requested position, is non-empty and stays inside the
text.  Non-emptiness holds for the docstring grammar because every
top-level alternative requires at least one character. -/
def ValidSearch (text : List Char) (srch : Nat → Option ReMatch) : Prop :=
  ∀ pos m, srch pos = some m →
    pos ≤ m.mstart ∧ m.mstart < m.mend ∧ m.mend ≤ text.length

/-- Concatenation of the `text` fields of a token stream. -/
def joinTexts (ts : List ScanToken) : List Char :=
  ts.foldr (fun t acc => t.2.1 ++ acc) []

/-! ## The markup transducer (`DocFormatter.format`, docwriter.py lines
386-402, and the `_process_*` handlers, lines 509-675)

Output is modelled as a list of emission fragments; `render` concatenates
them to the output string.  The transducer state is the pair of the
mutable instance attributes the handlers touch: `self._processing_code`
and `self._opened_sections` (initialised `False` / `0` in `__init__`,
lines 316-325).  `_opened_sections` is an `Int` so that non-negativity is
a statement, not a typing artifact. -/

inductive Frag where
  | pOpen
  | pClose
  | sectionOpen
  | sectionClose
  | codeOpen (mime : Option String)
  | codeClose
  | title (t : String)
  | noteOpen
  | noteClose
  | str (s : String)
  deriving DecidableEq, Repr

def fragStr : Frag → String
  | .pOpen => "<p>"
  | .pClose => "</p>"
  | .sectionOpen => "<section>"
  | .sectionClose => "</section>"
  | .codeOpen none => "<code>"
  | .codeOpen (some m) => "<code mime=\"" ++ m ++ "\">"
  | .codeClose => "</code>"
  | .title t => "<title>" ++ t ++ "</title>"
  | .noteOpen => "<note>"
  | .noteClose => "</note>"
  | .str s => s

def render (fs : List Frag) : String :=
  String.join (fs.map fragStr)

structure TState where
  processingCode : Bool
  openedSections : Int
  deriving DecidableEq, Repr

/-- The formatter state right after `DocFormatter.__init__`. -/
def initState : TState := ⟨false, 0⟩

/-- `while self._opened_sections >= header_level: emit "</section>"` of
`_process_heading` (docwriter.py lines 643-645). -/
def closeSections (opened level : Int) : List Frag × Int :=
  if level ≤ opened then
    let r := closeSections (opened - 1) level
    (Frag.sectionClose :: r.1, r.2)
  else ([], opened)
termination_by (opened + 1 - level).toNat
decreasing_by omega

/-- `while self._opened_sections < header_level: emit "<section>"` of
`_process_heading` (docwriter.py lines 647-649). -/
def openSectionsLoop (opened level : Int) : List Frag × Int :=
  if opened < level then
    let r := openSectionsLoop (opened + 1) level
    (Frag.sectionOpen :: r.1, r.2)
  else ([], opened)
termination_by (level - opened).toNat
decreasing_by omega

/-- `while self._opened_sections > 0: emit "</section>"` of `format`
(docwriter.py lines 399-401). -/
def closeAll (opened : Int) : List Frag × Int :=
  if 0 < opened then
    let r := closeAll (opened - 1)
    (Frag.sectionClose :: r.1, r.2)
  else ([], opened)
termination_by opened.toNat
decreasing_by omega

/-- Python `match.strip("\n")`. -/
def stripNl (s : String) : String :=
  String.mk
    (((s.data.dropWhile (fun c => c = '\n')).reverse.dropWhile
        (fun c => c = '\n')).reverse)

/-- The `header_level` count of `_process_heading` (docwriter.py lines
637-640): the run of leading `#` of the newline-stripped match.  (The
source indexes character by character; on every scanner-produced heading
token a non-`#` character follows the run, making the index walk equal to
this `takeWhile`.) -/
def headingLevel (matchText : String) : Nat :=
  ((stripNl matchText).data.takeWhile (fun c => c = '#')).length

/-- One token of the transducer input, corresponding to
`_process_token`'s dispatch table (docwriter.py lines 654-675).

* `inline r` covers the seven handlers `other`, `property`, `signal`,
  `type_name`, `enum_value`, `parameter` and `function_call`: each of
  them returns a string computed from the token and the resolvers alone —
  none of them reads or writes `_processing_code` or `_opened_sections` —
  so the fragment they emit is carried as `r`.
* `note` and `heading` carry the full matched text (returned verbatim
  inside code blocks) and the captured property.
* `includeFound contents inCodeText` is an `include` whose file was
  found: outside code the contents are re-scanned and processed
  recursively (`format_inline`), carried here as the token list
  `contents`; inside code only `_resolve_implicit_links` runs on them,
  carried as `inCodeText`.  `includeMissing` is the warn-and-passthrough
  branch. -/
inductive Token where
  | inline (rendered : String)
  | newLine
  | newParagraph
  | codeStart
  | codeStartWithLanguage (language : String)
  | codeEnd
  | note (matchText contents : String)
  | heading (matchText titleText : String)
  | includeMissing (matchText : String)
  | includeFound (contents : List Token) (inCodeText : String)
  deriving Repr

mutual

/-- `DocFormatter._process_token` (docwriter.py lines 654-675) together
with the dispatched handlers: the emitted fragments and the successor
state.  `.error ()` is the `KeyError` of
`_process_code_start_with_language` on an unknown language tag. -/
def process_token (s : TState) : Token → Except Unit (List Frag × TState)
  | .inline r => .ok ([.str r], s)
  | .newLine => .ok ([.str "\n"], s)
  | .newParagraph =>
      if s.processingCode then .ok ([.str "\n\n"], s)
      else .ok ([.pClose, .pOpen], s)
  | .codeStart =>
      .ok ([.pClose, .codeOpen none], { s with processingCode := true })
  | .codeStartWithLanguage lang =>
      match language_mimes.lookup (String.mk (lang.data.map Char.toLower)) with
      | none => .error ()
      | some mime =>
          if mime = "" then
            .ok ([.pClose, .codeOpen none], { s with processingCode := true })
          else
            .ok ([.pClose, .codeOpen (some mime)],
                 { s with processingCode := true })
  | .codeEnd => .ok ([.codeClose, .pOpen], { s with processingCode := false })
  | .note m c =>
      if s.processingCode then .ok ([.str m], s)
      else
        .ok ([.pClose, .noteOpen, .pOpen, .str c, .pClose, .noteClose, .pOpen],
             s)
  | .heading m t =>
      if s.processingCode then .ok ([.str m], s)
      else
        let level : Int := headingLevel m
        let c := closeSections s.openedSections level
        let o := openSectionsLoop c.2 level
        .ok (Frag.pClose :: (c.1 ++ o.1 ++ [Frag.title t, Frag.pOpen]),
             { s with openedSections := o.2 })
  | .includeMissing m => .ok ([.str m], s)
  | .includeFound contents inCode =>
      if s.processingCode then .ok ([.str inCode], s)
      else process_tokens s contents

/-- `DocFormatter.format_inline` (docwriter.py lines 680-683): process the
token stream left to right, threading the state. -/
def process_tokens (s : TState) : List Token → Except Unit (List Frag × TState)
  | [] => .ok ([], s)
  | t :: ts =>
      match process_token s t with
      | .error e => .error e
      | .ok (fs, s1) =>
          match process_tokens s1 ts with
          | .error e => .error e
          | .ok (fs2, s2) => .ok (fs ++ fs2, s2)

end

/-- `DocFormatter.format` (docwriter.py lines 386-402): wrap in a
paragraph unless the formatter entered the call inside a code block,
process the tokens, then close every section still open. -/
def format (s : TState) (ts : List Token) : Except Unit (List Frag × TState) :=
  let processing_code := s.processingCode
  match process_tokens s ts with
  | .error e => .error e
  | .ok (fs, s1) =>
      let body :=
        if processing_code then fs else Frag.pOpen :: fs ++ [Frag.pClose]
      let c := closeAll s1.openedSections
      .ok (body ++ c.1, { s1 with openedSections := c.2 })

/-- Contribution of one fragment to the open-section depth. -/
def fragDelta : Frag → Int
  | .sectionOpen => 1
  | .sectionClose => -1
  | _ => 0

def deltaSum (fs : List Frag) : Int :=
  (fs.map fragDelta).sum

/-- `nonnegFrom d fs` : starting from depth `d`, the running open-section
depth along `fs` (checked before and after every fragment) never becomes
negative. -/
def nonnegFrom (d : Int) : List Frag → Bool
  | [] => decide (0 ≤ d)
  | f :: fs => decide (0 ≤ d) && nonnegFrom (d + fragDelta f) fs

mutual

/-- Well-formedness of transducer input as the scanner produces it: every
`heading` token's matched text begins (after newline stripping) with at
least one `#` — guaranteed by the `heading` pattern `#+\s+...` — also
inside included content. -/
def wfToken : Token → Bool
  | .heading m _ => decide (1 ≤ headingLevel m)
  | .includeFound contents _ => wfTokens contents
  | _ => true

def wfTokens : List Token → Bool
  | [] => true
  | t :: ts => wfToken t && wfTokens ts

end

/-! ### Concrete instances used by witnesses and counterexamples -/

/-- Character index of the last occurrence of `pat` in `s`. -/
def lastOccur (pat s : List Char) : Option Nat :=
  ((List.range (s.length + 1)).filter (fun i => hasPref pat (s.drop i))).getLast?

/-- A resolver knowing exactly the type `Widget` (pages named by the
identity page-id function in the theorems below). -/
def widgetResolve : String → Option String :=
  fun s => if s = "Widget" then some "Widget" else none

/-- A resolver (over `List Char` words) knowing exactly the word `Foo`. -/
def fooResolve : List Char → Option Unit :=
  fun w => if w = "Foo".data then some () else none

/-- The groupdict `re` produces for the scanner match on the input `"|["`:
the `code_start` alternative wins, its own group holds the matched text,
and every other named group of the combined pattern did not participate
(`None`). -/
def pipe_groupdict : List (String × Option String) :=
  docstring_group_names.map
    (fun g => (g, if g = "code_start" then some "|[" else none))

/-- The `re` match for `"|["` inside the text `"a|[b"`: span `[1, 3)`,
winning group `code_start`. -/
def pipe_match : ReMatch :=
  ⟨1, 3, "code_start", pipe_groupdict⟩

/-- Search function realising `self.regex.search("a|[b", pos)`. -/
def pipe_srch : Nat → Option ReMatch :=
  fun pos => if pos ≤ 1 then some pipe_match else none

/-! ## Theorems -/

theorem cmap_append (g : Char → List Char) (xs ys : List Char) :
    cmap g (xs ++ ys) = cmap g xs ++ cmap g ys := by
  induction xs with
  | nil => rfl
  | cons a xs ih => simp [cmap, ih]

theorem replaceAll_singleton (c : Char) (x : List Char) (s : List Char) :
    replaceAll [c] x s = cmap (fun a => if a = c then x else [a]) s := by
  induction s with
  | nil => simp [replaceAll, cmap]
  | cons a s ih =>
    rw [replaceAll]
    by_cases hac : a = c
    · subst hac
      simp [hasPref, cmap, ih]
    · have : ¬ (([c] : List Char) ≠ [] ∧ hasPref [c] (a :: s) = true) := by
        simp [hasPref]
        intro h
        exact absurd h.symm hac
      rw [if_neg this]
      simp [cmap, hac, ih]

theorem cmap_cmap (g h : Char → List Char) (s : List Char) :
    cmap h (cmap g s) = cmap (fun a => cmap h (g a)) s := by
  induction s with
  | nil => rfl
  | cons a s ih => simp [cmap, cmap_append, ih]

theorem escape_eq_cmap (s : List Char) : escape s = cmap escChar s := by
  unfold escape
  rw [replaceAll_singleton, replaceAll_singleton, replaceAll_singleton,
      cmap_cmap, cmap_cmap]
  apply congrFun
  apply congrArg
  funext a
  by_cases h1 : a = '&'
  · subst h1; rfl
  · by_cases h2 : a = '>'
    · subst h2; rfl
    · by_cases h3 : a = '<'
      · subst h3; rfl
      · simp [escChar, cmap, h1, h2, h3]

theorem escape_no_lt_gt (s : List Char) : '<' ∉ escape s ∧ '>' ∉ escape s := by
  rw [escape_eq_cmap]
  induction s with
  | nil => simp [cmap]
  | cons a s ih =>
    simp only [cmap, List.mem_append]
    constructor
    · rintro (h | h)
      · unfold escChar at h
        split at h
        · simp_all [String.data]
        · split at h
          · simp_all [String.data]
          · split at h
            · simp_all [String.data]
            · rename_i h1 h2 h3
              simp at h
              exact h3 h.symm
      · exact ih.1 h
    · rintro (h | h)
      · unfold escChar at h
        split at h
        · simp_all [String.data]
        · split at h
          · simp_all [String.data]
          · split at h
            · simp_all [String.data]
            · rename_i h1 h2 h3
              simp at h
              exact h2 h.symm
      · exact ih.2 h

theorem escChar_length_ge_one (c : Char) : 1 ≤ (escChar c).length := by
  unfold escChar
  split
  · simp [String.data]
  · split
    · simp [String.data]
    · split
      · simp [String.data]
      · simp

theorem cmap_escChar_length (s : List Char) :
    s.length ≤ (cmap escChar s).length := by
  induction s with
  | nil => simp [cmap]
  | cons b t iht =>
    simp only [cmap, List.length_append, List.length_cons]
    have := escChar_length_ge_one b
    omega

theorem escChar_length_of_structural (a : Char)
    (h : a = '&' ∨ a = '>' ∨ a = '<') : 4 ≤ (escChar a).length := by
  rcases h with h | h | h <;> subst h <;> simp [escChar, String.data]

theorem escape_eq_self_iff (s : List Char) :
    escape s = s ↔ structuralFree s = true := by
  rw [escape_eq_cmap]
  induction s with
  | nil => simp [cmap, structuralFree]
  | cons a s ih =>
    simp only [cmap, structuralFree, List.all_cons, Bool.and_eq_true]
    constructor
    · intro h
      by_cases hstruct : a = '&' ∨ a = '>' ∨ a = '<'
      · exfalso
        have hlen := congrArg List.length h
        simp only [List.length_append, List.length_cons] at hlen
        have h4 := escChar_length_of_structural a hstruct
        have hge := cmap_escChar_length s
        omega
      · push_neg at hstruct
        obtain ⟨h1, h2, h3⟩ := hstruct
        have ha : escChar a = [a] := by simp [escChar, h1, h2, h3]
        rw [ha] at h
        simp only [List.cons_append, List.nil_append, List.cons.injEq] at h
        refine ⟨⟨⟨by simp [h1], by simp [h3]⟩, by simp [h2]⟩, ?_⟩
        exact ih.mp h.2
    · rintro ⟨⟨⟨h1, h3⟩, h2⟩, hs⟩
      simp at h1 h2 h3
      have ha : escChar a = [a] := by simp [escChar, h1, h2, h3]
      rw [ha, ih.mpr hs]
      simp

theorem structuralFree_escape_iff (s : List Char) :
    structuralFree (escape s) = true ↔ structuralFree s = true := by
  rw [escape_eq_cmap]
  induction s with
  | nil => simp [cmap, structuralFree]
  | cons a s ih =>
    simp only [cmap, structuralFree, List.all_append, List.all_cons,
      Bool.and_eq_true] at *
    constructor
    · rintro ⟨hea, hes⟩
      refine ⟨?_, ih.mp hes⟩
      by_cases h1 : a = '&'
      · exfalso; subst h1; simp [escChar, String.data] at hea
      · by_cases h2 : a = '>'
        · exfalso; subst h2; simp [escChar, String.data] at hea
        · by_cases h3 : a = '<'
          · exfalso; subst h3; simp [escChar, String.data] at hea
          · simp [h1, h2, h3]
    · rintro ⟨⟨⟨h1, h3⟩, h2⟩, hs⟩
      simp at h1 h2 h3
      have ha : escChar a = [a] := by simp [escChar, h1, h2, h3]
      rw [ha]
      exact ⟨by simp [structuralFree, h1, h2, h3, List.all_cons], ih.mpr hs⟩

theorem links_fold_unresolved {Node : Type} (rT rS : List Char → Option Node)
    (fX : Node → List Char → List Char)
    (acc : List (List Char × List Char)) (ws : List (List Char))
    (h : ∀ w, w ∈ ws → w ≠ [] → rT w = none ∧ rS w = none) :
    links_fold rT rS fX acc ws = acc := by
  induction ws generalizing acc with
  | nil => rfl
  | cons w ws ih =>
    rw [links_fold]
    by_cases hw : w = []
    · rw [if_pos hw]
      exact ih acc (fun v hv hne => h v (List.mem_cons_of_mem _ hv) hne)
    · rw [if_neg hw]
      obtain ⟨ht, hs⟩ := h w (List.mem_cons_self _ _) hw
      rw [ht, hs]
      exact ih acc (fun v hv hne => h v (List.mem_cons_of_mem _ hv) hne)

/-! ### Loop characterisations -/

theorem closeSections_eq (l : Int) : ∀ (o : Int),
    closeSections o l =
      (List.replicate (o + 1 - l).toNat Frag.sectionClose,
       if l ≤ o then l - 1 else o) := by
  suffices H : ∀ (n : Nat) (o : Int), (o + 1 - l).toNat = n →
      closeSections o l =
        (List.replicate (o + 1 - l).toNat Frag.sectionClose,
         if l ≤ o then l - 1 else o) by
    intro o; exact H _ o rfl
  intro n
  induction n with
  | zero =>
    intro o hn
    have hno : ¬ l ≤ o := by omega
    rw [closeSections, if_neg hno, if_neg hno, hn]
    simp
  | succ n ih =>
    intro o hn
    have hyes : l ≤ o := by omega
    rw [closeSections, if_pos hyes, if_pos hyes]
    rw [ih (o - 1) (by omega)]
    have h2 : (o - 1 + 1 - l).toNat = n := by omega
    rw [h2, hn]
    simp only [List.replicate_succ, Prod.mk.injEq, List.cons.injEq, true_and]
    split <;> omega

theorem openSectionsLoop_eq (l : Int) : ∀ (o : Int),
    openSectionsLoop o l =
      (List.replicate (l - o).toNat Frag.sectionOpen,
       if o < l then l else o) := by
  suffices H : ∀ (n : Nat) (o : Int), (l - o).toNat = n →
      openSectionsLoop o l =
        (List.replicate (l - o).toNat Frag.sectionOpen,
         if o < l then l else o) by
    intro o; exact H _ o rfl
  intro n
  induction n with
  | zero =>
    intro o hn
    have hno : ¬ o < l := by omega
    rw [openSectionsLoop, if_neg hno, if_neg hno, hn]
    simp
  | succ n ih =>
    intro o hn
    have hyes : o < l := by omega
    rw [openSectionsLoop, if_pos hyes, if_pos hyes]
    rw [ih (o + 1) (by omega)]
    have h2 : (l - (o + 1)).toNat = n := by omega
    rw [h2, hn]
    simp only [List.replicate_succ, Prod.mk.injEq, List.cons.injEq, true_and]
    split <;> omega

theorem closeAll_eq : ∀ (o : Int),
    closeAll o =
      (List.replicate o.toNat Frag.sectionClose, if 0 < o then 0 else o) := by
  suffices H : ∀ (n : Nat) (o : Int), o.toNat = n →
      closeAll o =
        (List.replicate o.toNat Frag.sectionClose, if 0 < o then 0 else o) by
    intro o; exact H _ o rfl
  intro n
  induction n with
  | zero =>
    intro o hn
    have hno : ¬ 0 < o := by omega
    rw [closeAll, if_neg hno, if_neg hno, hn]
    simp
  | succ n ih =>
    intro o hn
    have hyes : 0 < o := by omega
    rw [closeAll, if_pos hyes, if_pos hyes]
    rw [ih (o - 1) (by omega)]
    have h2 : (o - 1).toNat = n := by omega
    rw [h2, hn]
    simp only [List.replicate_succ, Prod.mk.injEq, List.cons.injEq, true_and]
    split <;> omega

/-! ### Depth bookkeeping over fragment lists -/

theorem deltaSum_nil : deltaSum [] = 0 := rfl

theorem deltaSum_cons (f : Frag) (fs : List Frag) :
    deltaSum (f :: fs) = fragDelta f + deltaSum fs := by
  simp [deltaSum]

theorem deltaSum_append (xs ys : List Frag) :
    deltaSum (xs ++ ys) = deltaSum xs + deltaSum ys := by
  induction xs with
  | nil => simp [deltaSum]
  | cons x xs ih =>
    rw [List.cons_append, deltaSum_cons, deltaSum_cons, ih]
    omega

theorem deltaSum_replicate_close (k : Nat) :
    deltaSum (List.replicate k Frag.sectionClose) = -(k : Int) := by
  induction k with
  | zero => rfl
  | succ k ih =>
    rw [List.replicate_succ, deltaSum_cons, ih]
    simp only [fragDelta]
    omega

theorem deltaSum_replicate_open (k : Nat) :
    deltaSum (List.replicate k Frag.sectionOpen) = (k : Int) := by
  induction k with
  | zero => rfl
  | succ k ih =>
    rw [List.replicate_succ, deltaSum_cons, ih]
    simp only [fragDelta]
    omega

theorem deltaSum_eq_counts (fs : List Frag) :
    deltaSum fs =
      (fs.count Frag.sectionOpen : Int) - (fs.count Frag.sectionClose : Int) := by
  induction fs with
  | nil => simp [deltaSum]
  | cons f fs ih =>
    rw [deltaSum_cons, ih]
    cases f <;>
      simp [fragDelta, List.count_cons] <;> omega

theorem nonnegFrom_head (d : Int) (fs : List Frag)
    (h : nonnegFrom d fs = true) : 0 ≤ d := by
  cases fs with
  | nil => simpa [nonnegFrom] using h
  | cons f fs =>
    rw [nonnegFrom, Bool.and_eq_true] at h
    simpa using h.1

theorem nonnegFrom_append (d : Int) (xs ys : List Frag) :
    nonnegFrom d (xs ++ ys) = true ↔
      nonnegFrom d xs = true ∧ nonnegFrom (d + deltaSum xs) ys = true := by
  induction xs generalizing d with
  | nil =>
    simp only [List.nil_append, nonnegFrom, deltaSum_nil, add_zero]
    constructor
    · intro h
      exact ⟨by simpa using nonnegFrom_head d ys h, h⟩
    · exact fun h => h.2
  | cons x xs ih =>
    rw [List.cons_append, nonnegFrom, nonnegFrom, deltaSum_cons,
        Bool.and_eq_true, Bool.and_eq_true, ih (d + fragDelta x),
        ← add_assoc]
    tauto

theorem nonnegFrom_replicate_close (d : Int) (k : Nat) :
    nonnegFrom d (List.replicate k Frag.sectionClose) = true ↔ (k : Int) ≤ d := by
  induction k generalizing d with
  | zero => simp [nonnegFrom]
  | succ k ih =>
    rw [List.replicate_succ, nonnegFrom, Bool.and_eq_true, ih]
    simp [fragDelta]
    omega

theorem nonnegFrom_replicate_open (d : Int) (k : Nat) :
    nonnegFrom d (List.replicate k Frag.sectionOpen) = true ↔ 0 ≤ d := by
  induction k generalizing d with
  | zero => simp [nonnegFrom]
  | succ k ih =>
    rw [List.replicate_succ, nonnegFrom, Bool.and_eq_true, ih]
    simp [fragDelta]
    omega

/-! ### State evolution of the transducer -/

mutual

theorem process_token_state (s : TState) (t : Token) (fs : List Frag)
    (s' : TState) (h : process_token s t = .ok (fs, s')) :
    s'.openedSections = s.openedSections + deltaSum fs ∧
    (0 ≤ s.openedSections → 0 ≤ s'.openedSections) := by
  cases t with
  | inline r =>
      simp only [process_token, Except.ok.injEq, Prod.mk.injEq] at h
      obtain ⟨rfl, rfl⟩ := h
      simp [deltaSum, fragDelta]
  | newLine =>
      simp only [process_token, Except.ok.injEq, Prod.mk.injEq] at h
      obtain ⟨rfl, rfl⟩ := h
      simp [deltaSum, fragDelta]
  | newParagraph =>
      by_cases hc : s.processingCode <;>
        simp only [process_token, hc, Bool.false_eq_true, if_true, if_false,
          Except.ok.injEq, Prod.mk.injEq] at h <;>
        obtain ⟨rfl, rfl⟩ := h <;>
        simp [deltaSum, fragDelta]
  | codeStart =>
      simp only [process_token, Except.ok.injEq, Prod.mk.injEq] at h
      obtain ⟨rfl, rfl⟩ := h
      simp [deltaSum, fragDelta]
  | codeStartWithLanguage lang =>
      rw [process_token] at h
      cases hm : language_mimes.lookup (String.mk (lang.data.map Char.toLower)) with
      | none => rw [hm] at h; exact absurd h (by simp)
      | some mime =>
          rw [hm] at h
          by_cases hz : mime = "" <;>
            simp only [hz, if_true, if_false, Except.ok.injEq,
              Prod.mk.injEq, reduceIte] at h <;>
            obtain ⟨rfl, rfl⟩ := h <;>
            simp [deltaSum, fragDelta]
  | codeEnd =>
      simp only [process_token, Except.ok.injEq, Prod.mk.injEq] at h
      obtain ⟨rfl, rfl⟩ := h
      simp [deltaSum, fragDelta]
  | note m c =>
      by_cases hc : s.processingCode <;>
        simp only [process_token, hc, Bool.false_eq_true, if_true, if_false,
          Except.ok.injEq, Prod.mk.injEq] at h <;>
        obtain ⟨rfl, rfl⟩ := h <;>
        simp [deltaSum, fragDelta]
  | heading m t =>
      by_cases hc : s.processingCode
      · simp only [process_token, hc, if_true, Except.ok.injEq,
          Prod.mk.injEq] at h
        obtain ⟨rfl, rfl⟩ := h
        simp [deltaSum, fragDelta]
      · simp only [process_token, hc, Bool.false_eq_true, if_false,
          Except.ok.injEq, Prod.mk.injEq] at h
        obtain ⟨rfl, rfl⟩ := h
        rw [closeSections_eq, openSectionsLoop_eq]
        dsimp only
        simp only [deltaSum_cons, deltaSum_append, deltaSum_replicate_close,
          deltaSum_replicate_open, deltaSum_nil, fragDelta]
        constructor
        · split <;> split <;> omega
        · intro h0
          split <;> split <;> omega
  | includeMissing m =>
      simp only [process_token, Except.ok.injEq, Prod.mk.injEq] at h
      obtain ⟨rfl, rfl⟩ := h
      simp [deltaSum, fragDelta]
  | includeFound contents inCode =>
      by_cases hc : s.processingCode
      · simp only [process_token, hc, if_true, Except.ok.injEq,
          Prod.mk.injEq] at h
        obtain ⟨rfl, rfl⟩ := h
        simp [deltaSum, fragDelta]
      · simp only [process_token, hc, Bool.false_eq_true, if_false] at h
        exact process_tokens_state s contents fs s' h
termination_by sizeOf t

theorem process_tokens_state (s : TState) (ts : List Token) (fs : List Frag)
    (s' : TState) (h : process_tokens s ts = .ok (fs, s')) :
    s'.openedSections = s.openedSections + deltaSum fs ∧
    (0 ≤ s.openedSections → 0 ≤ s'.openedSections) := by
  cases ts with
  | nil =>
      simp only [process_tokens, Except.ok.injEq, Prod.mk.injEq] at h
      obtain ⟨rfl, rfl⟩ := h
      simp [deltaSum]
  | cons t ts =>
      rw [process_tokens] at h
      cases h1 : process_token s t with
      | error e => rw [h1] at h; exact absurd h (by simp)
      | ok p1 =>
          obtain ⟨fs1, s1⟩ := p1
          rw [h1] at h
          dsimp only at h
          cases h2 : process_tokens s1 ts with
          | error e => rw [h2] at h; exact absurd h (by simp)
          | ok p2 =>
              obtain ⟨fs2, s2⟩ := p2
              rw [h2] at h
              dsimp only at h
              simp only [Except.ok.injEq, Prod.mk.injEq] at h
              obtain ⟨rfl, rfl⟩ := h
              have ih1 := process_token_state s t fs1 s1 h1
              have ih2 := process_tokens_state s1 ts fs2 s2 h2
              refine ⟨?_, ?_⟩
              · rw [deltaSum_append]
                omega
              · intro h0
                exact ih2.2 (ih1.2 h0)
termination_by sizeOf ts

end

/-! ### Prefix non-negativity of the emitted depth -/

/-- The depth trace of the fragments a single state-independent text
emission produces. -/
theorem nonnegFrom_of_zero_delta (d : Int) (fs : List Frag)
    (h0 : 0 ≤ d) (hz : ∀ f ∈ fs, fragDelta f = 0) :
    nonnegFrom d fs = true := by
  induction fs with
  | nil => simpa [nonnegFrom]
  | cons f fs ih =>
      rw [nonnegFrom, Bool.and_eq_true]
      refine ⟨by simpa, ?_⟩
      rw [hz f (List.mem_cons_self _ _), add_zero]
      exact ih (fun g hg => hz g (List.mem_cons_of_mem _ hg))

mutual

theorem process_token_nonneg (s : TState) (t : Token) (fs : List Frag)
    (s' : TState) (hwf : wfToken t = true) (h0 : 0 ≤ s.openedSections)
    (h : process_token s t = .ok (fs, s')) :
    nonnegFrom s.openedSections fs = true := by
  cases t with
  | inline r =>
      simp only [process_token, Except.ok.injEq, Prod.mk.injEq] at h
      obtain ⟨rfl, rfl⟩ := h
      exact nonnegFrom_of_zero_delta _ _ h0 (by intro f hf; simp at hf; subst hf; rfl)
  | newLine =>
      simp only [process_token, Except.ok.injEq, Prod.mk.injEq] at h
      obtain ⟨rfl, rfl⟩ := h
      exact nonnegFrom_of_zero_delta _ _ h0 (by intro f hf; simp at hf; subst hf; rfl)
  | newParagraph =>
      by_cases hc : s.processingCode <;>
        simp only [process_token, hc, Bool.false_eq_true, if_true, if_false,
          Except.ok.injEq, Prod.mk.injEq] at h <;>
        obtain ⟨rfl, rfl⟩ := h <;>
        refine nonnegFrom_of_zero_delta _ _ h0 ?_ <;>
        · intro f hf
          simp at hf
          first
            | (subst hf; rfl)
            | (rcases hf with hf | hf <;> subst hf <;> rfl)
  | codeStart =>
      simp only [process_token, Except.ok.injEq, Prod.mk.injEq] at h
      obtain ⟨rfl, rfl⟩ := h
      refine nonnegFrom_of_zero_delta _ _ h0 ?_
      intro f hf
      simp at hf
      rcases hf with hf | hf <;> subst hf <;> rfl
  | codeStartWithLanguage lang =>
      rw [process_token] at h
      cases hm : language_mimes.lookup (String.mk (lang.data.map Char.toLower)) with
      | none => rw [hm] at h; exact absurd h (by simp)
      | some mime =>
          rw [hm] at h
          by_cases hz : mime = "" <;>
            simp only [hz, if_true, if_false, Except.ok.injEq,
              Prod.mk.injEq, reduceIte] at h <;>
            obtain ⟨rfl, rfl⟩ := h <;>
            refine nonnegFrom_of_zero_delta _ _ h0 ?_ <;>
            · intro f hf
              simp at hf
              rcases hf with hf | hf <;> subst hf <;> rfl
  | codeEnd =>
      simp only [process_token, Except.ok.injEq, Prod.mk.injEq] at h
      obtain ⟨rfl, rfl⟩ := h
      refine nonnegFrom_of_zero_delta _ _ h0 ?_
      intro f hf
      simp at hf
      rcases hf with hf | hf <;> subst hf <;> rfl
  | note m c =>
      by_cases hc : s.processingCode <;>
        simp only [process_token, hc, Bool.false_eq_true, if_true, if_false,
          Except.ok.injEq, Prod.mk.injEq] at h <;>
        obtain ⟨rfl, rfl⟩ := h <;>
        refine nonnegFrom_of_zero_delta _ _ h0 ?_ <;>
        · intro f hf
          simp at hf
          first
            | (subst hf; rfl)
            | (rcases hf with hf | hf | hf | hf | hf | hf | hf <;> subst hf <;> rfl)
  | heading m t =>
      by_cases hc : s.processingCode
      · simp only [process_token, hc, if_true, Except.ok.injEq,
          Prod.mk.injEq] at h
        obtain ⟨rfl, rfl⟩ := h
        exact nonnegFrom_of_zero_delta _ _ h0
          (by intro f hf; simp at hf; subst hf; rfl)
      · simp only [process_token, hc, Bool.false_eq_true, if_false,
          Except.ok.injEq, Prod.mk.injEq] at h
        obtain ⟨rfl, rfl⟩ := h
        have hlev : 1 ≤ headingLevel m := by
          simpa [wfToken] using hwf
        rw [closeSections_eq, openSectionsLoop_eq]
        dsimp only
        rw [show (Frag.pClose ::
              (List.replicate (s.openedSections + 1 - ↑(headingLevel m)).toNat
                  Frag.sectionClose ++
                List.replicate
                    (↑(headingLevel m) -
                        if ↑(headingLevel m) ≤ s.openedSections then
                          ↑(headingLevel m) - 1
                        else s.openedSections).toNat
                  Frag.sectionOpen ++
              [Frag.title t, Frag.pOpen])) =
            ([Frag.pClose] ++
              (List.replicate (s.openedSections + 1 - ↑(headingLevel m)).toNat
                  Frag.sectionClose ++
                (List.replicate
                    (↑(headingLevel m) -
                        if ↑(headingLevel m) ≤ s.openedSections then
                          ↑(headingLevel m) - 1
                        else s.openedSections).toNat
                  Frag.sectionOpen ++
                [Frag.title t, Frag.pOpen]))) from by simp]
        rw [nonnegFrom_append, nonnegFrom_append, nonnegFrom_append]
        simp only [deltaSum_cons, deltaSum_nil, deltaSum_append,
          deltaSum_replicate_close, deltaSum_replicate_open, fragDelta,
          nonnegFrom_replicate_close, nonnegFrom_replicate_open]
        refine ⟨?_, ?_, ?_, ?_⟩
        · simp only [nonnegFrom, fragDelta, Bool.and_eq_true, decide_eq_true_eq]
          omega
        · omega
        · omega
        · have : ∀ d : Int, 0 ≤ d →
              nonnegFrom d [Frag.title t, Frag.pOpen] = true := by
            intro d hd
            simp [nonnegFrom, fragDelta, hd]
          apply this
          split <;> omega
  | includeMissing m =>
      simp only [process_token, Except.ok.injEq, Prod.mk.injEq] at h
      obtain ⟨rfl, rfl⟩ := h
      exact nonnegFrom_of_zero_delta _ _ h0
        (by intro f hf; simp at hf; subst hf; rfl)
  | includeFound contents inCode =>
      by_cases hc : s.processingCode
      · simp only [process_token, hc, if_true, Except.ok.injEq,
          Prod.mk.injEq] at h
        obtain ⟨rfl, rfl⟩ := h
        exact nonnegFrom_of_zero_delta _ _ h0
          (by intro f hf; simp at hf; subst hf; rfl)
      · simp only [process_token, hc, Bool.false_eq_true, if_false] at h
        have hwf' : wfTokens contents = true := by simpa [wfToken] using hwf
        exact process_tokens_nonneg s contents fs s' hwf' h0 h
termination_by sizeOf t

theorem process_tokens_nonneg (s : TState) (ts : List Token) (fs : List Frag)
    (s' : TState) (hwf : wfTokens ts = true) (h0 : 0 ≤ s.openedSections)
    (h : process_tokens s ts = .ok (fs, s')) :
    nonnegFrom s.openedSections fs = true := by
  cases ts with
  | nil =>
      simp only [process_tokens, Except.ok.injEq, Prod.mk.injEq] at h
      obtain ⟨rfl, rfl⟩ := h
      simpa [nonnegFrom]
  | cons t ts =>
      rw [wfTokens, Bool.and_eq_true] at hwf
      rw [process_tokens] at h
      cases h1 : process_token s t with
      | error e => rw [h1] at h; exact absurd h (by simp)
      | ok p1 =>
          obtain ⟨fs1, s1⟩ := p1
          rw [h1] at h
          dsimp only at h
          cases h2 : process_tokens s1 ts with
          | error e => rw [h2] at h; exact absurd h (by simp)
          | ok p2 =>
              obtain ⟨fs2, s2⟩ := p2
              rw [h2] at h
              dsimp only at h
              simp only [Except.ok.injEq, Prod.mk.injEq] at h
              obtain ⟨rfl, rfl⟩ := h
              have hst := process_token_state s t fs1 s1 h1
              rw [nonnegFrom_append]
              refine ⟨process_token_nonneg s t fs1 s1 hwf.1 h0 h1, ?_⟩
              rw [← hst.1]
              exact process_tokens_nonneg s1 ts fs2 s2 hwf.2 (hst.2 h0) h2
termination_by sizeOf ts

end

/-! ### Elimination helper for `format` -/

theorem format_ok_elim (s : TState) (ts : List Token) (out : List Frag)
    (s' : TState) (h : format s ts = .ok (out, s')) :
    ∃ fs s1, process_tokens s ts = .ok (fs, s1) ∧
      out = (if s.processingCode then fs
             else Frag.pOpen :: fs ++ [Frag.pClose]) ++
        List.replicate s1.openedSections.toNat Frag.sectionClose ∧
      s' = { s1 with openedSections :=
               if 0 < s1.openedSections then 0 else s1.openedSections } := by
  rw [format] at h
  cases hp : process_tokens s ts with
  | error e => rw [hp] at h; exact absurd h (by simp)
  | ok p =>
      obtain ⟨fs, s1⟩ := p
      rw [hp] at h
      dsimp only at h
      rw [closeAll_eq] at h
      simp only [Except.ok.injEq, Prod.mk.injEq] at h
      exact ⟨fs, s1, rfl, h.1.symm, h.2.symm⟩

/-- **C1.**  For every document processed by `format` (from the freshly
initialised formatter state, with every heading token carrying at least
one leading `#` as the scanner's `#+\s+` pattern guarantees — skipped
levels included): the number of `<section>` emissions equals the number of
`</section>` emissions, the running open-section depth never becomes
negative at any intermediate step, and the stored depth is `0` when
processing ends. -/
theorem c1_heading_section_balance (ts : List Token) (out : List Frag)
    (s' : TState) (hwf : wfTokens ts = true)
    (h : format initState ts = .ok (out, s')) :
    out.count Frag.sectionOpen = out.count Frag.sectionClose ∧
    nonnegFrom 0 out = true ∧
    s'.openedSections = 0 := by
  obtain ⟨fs, s1, hp, hout, hs'⟩ := format_ok_elim _ _ _ _ h
  rw [show initState.processingCode = false from rfl] at hout
  rw [if_neg (by simp)] at hout
  have hst := process_tokens_state initState ts fs s1 hp
  have h0 : (0 : Int) ≤ s1.openedSections := hst.2 (by simp [initState])
  have hd : s1.openedSections = deltaSum fs := by
    have h1 := hst.1
    simpa [initState] using h1
  have hnn := process_tokens_nonneg initState ts fs s1 hwf
    (by simp [initState]) hp
  rw [show initState.openedSections = 0 from rfl] at hnn
  have hsplit : out = [Frag.pOpen] ++
      (fs ++ ([Frag.pClose] ++
        List.replicate s1.openedSections.toNat Frag.sectionClose)) := by
    rw [hout]; simp
  refine ⟨?_, ?_, ?_⟩
  · have hds : deltaSum out = 0 := by
      rw [hsplit]
      simp only [deltaSum_append, deltaSum_cons, deltaSum_nil,
        deltaSum_replicate_close, fragDelta]
      omega
    rw [deltaSum_eq_counts] at hds
    omega
  · rw [hsplit, nonnegFrom_append, nonnegFrom_append, nonnegFrom_append]
    refine ⟨?_, ?_, ?_, ?_⟩
    · simp [nonnegFrom, fragDelta]
    · simpa [deltaSum_cons, deltaSum_nil, fragDelta] using hnn
    · simp only [nonnegFrom, fragDelta, Bool.and_eq_true, decide_eq_true_eq,
        deltaSum_cons, deltaSum_nil]
      omega
    · rw [nonnegFrom_replicate_close]
      simp only [deltaSum_cons, deltaSum_nil, deltaSum_append, fragDelta]
      omega
  · rw [hs']
    dsimp only
    split <;> omega

/-- **C2 (amended).**  At the end of `format` the paragraph wrapper closes
first and the leftover open sections are closed after it: the output is
`<p> … </p>` followed by exactly the trailing `</section>` run (empty when
no section stayed open).  The spec's claim that the section closes come
*before* the final paragraph close is refuted by
`c2_sections_close_after_final_paragraph_counterexample`. -/
theorem c2_trailing_closes_follow_final_pclose (ts : List Token)
    (out : List Frag) (s' : TState)
    (h : format initState ts = .ok (out, s')) :
    ∃ inner k, out =
      Frag.pOpen :: inner ++ Frag.pClose :: List.replicate k Frag.sectionClose := by
  obtain ⟨fs, s1, hp, hout, hs'⟩ := format_ok_elim _ _ _ _ h
  rw [show initState.processingCode = false from rfl] at hout
  rw [if_neg (by simp)] at hout
  refine ⟨fs, s1.openedSections.toNat, ?_⟩
  rw [hout]
  simp

/-- **C8 (amended).**  The open-section depth never leaks across
documents: `format` always drives it back to `0`.  Hence whenever a first
document leaves the inside-code flag `false`, the formatter is back in its
initial state and a second document renders exactly as if it were
processed first.  (Without that proviso the flag does leak, see
`c8_processing_code_leak_counterexample`.) -/
theorem c8_reset_state_noninterference (A B : List Token) (outA : List Frag)
    (s1 : TState) (hA : format initState A = .ok (outA, s1))
    (hpc : s1.processingCode = false) :
    format s1 B = format initState B := by
  obtain ⟨fs, sm, hp, hout, hs1⟩ := format_ok_elim _ _ _ _ hA
  obtain ⟨pc, op⟩ := sm
  have hst := process_tokens_state initState A fs ⟨pc, op⟩ hp
  have h0 : (0 : Int) ≤ op := hst.2 (by simp [initState])
  have : s1 = initState := by
    rw [hs1] at hpc ⊢
    dsimp only at hpc ⊢
    rw [initState]
    subst hpc
    simp only [TState.mk.injEq, true_and]
    split <;> omega
  rw [this]

/-! ## C3 — code-fence language lookup -/

/-- **C3 (code bug).**  `_process_code_start_with_language` does look the
tag up case-insensitively (`"Python"` yields the `text/x-python` code
block), but an unknown tag such as `"rust"` raises `KeyError`
(`language_mimes[...]` is a plain subscript) instead of degrading to an
unlabeled code block; the `if not mime` fallback intended for that case
is unreachable, every table value being non-empty. -/
theorem c3_unknown_language_keyerror :
    process_code_start_with_language "Python" =
      .ok ("</p><code mime=\"text/x-python\">", true) ∧
    process_code_start_with_language "rust" = .error () ∧
    language_mimes.all (fun p => !(p.2 == "")) = true :=
  ⟨by decide, by decide, by decide⟩

/-! ## C4 — `#TypeName` pluralisation -/

/-- **C4 (counterexample).**  The claim says exactly one trailing `'s'` is
stripped before the retry.  The source strips all of them
(`rstrip("s")`): for `#Widgetss` with only `Widget` known, the code
renders a pluralised xref to `Widget`, while the one-strip reading would
retry `Widgets`, fail, and leave `#Widgetss` unchanged. -/
theorem c4_one_strip_counterexample :
    process_type_name widgetResolve
      (fun n p => format_internal_xref (fun x : String => x) n [] none p)
      "#Widgetss" "Widgetss" = "<link xref=\"Widget\">Widgets</link>" ∧
    process_type_name_one_strip widgetResolve
      (fun n p => format_internal_xref (fun x : String => x) n [] none p)
      "#Widgetss" "Widgetss" = "#Widgetss" ∧
    ("<link xref=\"Widget\">Widgets</link>" : String) ≠ "#Widgetss" :=
  ⟨by decide, by decide, by decide⟩

/-- **C4 (amended).**  `_process_type_name`: a direct resolution renders an
unpluralised xref; on failure **all** trailing `'s'` characters are
stripped (`rstrip("s")`, not exactly one) and resolution is retried; a
match on the stripped form renders an internal link whose `xref` target
is the singular page id while only the visible text gets `"s"` appended;
a second failure returns the matched text unchanged. -/
theorem c4_type_name_rstrip_pluralize {Node : Type} (page_id : Node → String)
    (resolve : String → Option Node) (matchText ident : String) :
    (∀ n, resolve ident = some n →
      process_type_name resolve
        (fun m p => format_internal_xref page_id m [] none p) matchText ident =
        format_internal_xref page_id n [] none false) ∧
    (resolve ident = none → ∀ n, resolve (rstrip_s ident) = some n →
      process_type_name resolve
        (fun m p => format_internal_xref page_id m [] none p) matchText ident =
        format_internal_xref page_id n [] none true ∧
      format_internal_xref page_id n [] none true =
        build_xml_tag "link" [("xref", page_id n)] (some (page_id n ++ "s"))) ∧
    (resolve ident = none → resolve (rstrip_s ident) = none →
      process_type_name resolve
        (fun m p => format_internal_xref page_id m [] none p) matchText ident =
        matchText) := by
  refine ⟨?_, ?_, ?_⟩
  · intro n hn
    rw [process_type_name, hn]
  · intro h1 n h2
    rw [process_type_name, h1]
    dsimp only
    rw [h2]
    exact ⟨rfl, rfl⟩
  · intro h1 h2
    rw [process_type_name, h1]
    dsimp only
    rw [h2]

/-- Witness for `c4_type_name_rstrip_pluralize`: `#Widgetss` with only
`Widget` known resolves through the stripped form. -/
theorem c4_type_name_rstrip_pluralize_witness :
    process_type_name widgetResolve
      (fun m p => format_internal_xref (fun x : String => x) m [] none p)
      "#Widgetss" "Widgetss" =
      format_internal_xref (fun x : String => x) "Widget" [] none true :=
  (((c4_type_name_rstrip_pluralize (fun x : String => x) widgetResolve
      "#Widgetss" "Widgetss").2.1 (by decide) "Widget" (by decide))).1

/-! ## C7 — escaping is not idempotent -/

/-- **C7 (counterexample).**  `escape(escape("&")) = "&amp;amp;"` differs
from `escape("&") = "&amp;"`: the claimed identity
`escape ∘ escape = escape` fails on the structural character `&`. -/
theorem c7_escape_not_idempotent_counterexample :
    escape (escape "&".data) = "&amp;amp;".data ∧
    escape "&".data = "&amp;".data ∧
    ("&amp;amp;".data : List Char) ≠ "&amp;".data := by
  refine ⟨?_, ?_, by decide⟩ <;>
    · simp only [escape_eq_cmap]
      decide

/-- **C7 (amended).**  Escaped text never contains a raw `<` or `>`, so
those are never escaped again; but the `&` of the produced entities *is*
escaped again on a second pass: `escape (escape s) = escape s` holds
exactly when `s` contains none of the structural characters `&`, `<`,
`>`. -/
theorem c7_escape_idempotent_iff (s : List Char) :
    ('<' ∉ escape s ∧ '>' ∉ escape s) ∧
    (escape (escape s) = escape s ↔ structuralFree s = true) := by
  refine ⟨escape_no_lt_gt s, ?_⟩
  rw [escape_eq_self_iff (escape s), structuralFree_escape_iff]

/-! ## C9 — malformed identifiers resolve to "not found" -/

/-- **C9.**  When the namespace-splitting collaborator signals a malformed
identifier (the `ValueError` the source catches), both `_resolve_type`
and `_resolve_symbol` return `None` and no exception escapes to the
caller. -/
theorem c9_malformed_identifier_not_found {Node : Type}
    (split : String → Except Unit (List (NamespaceRef Node × String)))
    (ident : String) (h : split ident = .error ()) :
    resolve_type split ident = .ok none ∧
    resolve_symbol split ident = .ok none := by
  rw [resolve_type, resolve_symbol, h]
  exact ⟨rfl, rfl⟩

/-- Witness for `c9_malformed_identifier_not_found` with an
always-raising splitter. -/
theorem c9_malformed_identifier_not_found_witness :
    resolve_type
      (fun _ : String =>
        (.error () : Except Unit (List (NamespaceRef Unit × String)))) "9Gtk$" =
      .ok none ∧
    resolve_symbol
      (fun _ : String =>
        (.error () : Except Unit (List (NamespaceRef Unit × String)))) "9Gtk$" =
      .ok none :=
  c9_malformed_identifier_not_found _ "9Gtk$" rfl

/-! ## C6 — implicit links substitute globally, not per word -/

/-- **C6 (counterexample).**  With only `Foo` resolvable and the xref
rendered as `[Foo]`, the source turns `"Foo Food"` into `"[Foo] [Foo]d"`:
`match.replace(word, xref)` rewrites every occurrence of the word,
including inside the unmatched word `Food`.  The claimed
one-word-at-its-own-position substitution would give `"[Foo] Food"`. -/
theorem c6_word_position_counterexample :
    resolve_implicit_links true fooResolve (fun _ => none)
      (fun _ w => '[' :: (w ++ [']'])) "Foo Food".data = "[Foo] [Foo]d".data ∧
    claim_implicit_links true fooResolve (fun _ => none)
      (fun _ w => '[' :: (w ++ [']'])) "Foo Food".data = "[Foo] Food".data ∧
    ("[Foo] [Foo]d".data : List Char) ≠ "[Foo] Food".data := by
  refine ⟨?_, ?_, by decide⟩ <;>
    · simp only [resolve_implicit_links, claim_implicit_links, escape_eq_cmap]
      simp [links_fold, splitWords, isDelim, fooResolve, replaceAll, hasPref,
        claim_subst, claim_subst_go, claim_subst_word, cmap, escChar]

/-- **C6 (amended).**  In implicit-link mode the text is escaped and split
on spaces and parentheses; if no word resolves the escaped text is
returned unchanged, and a resolved word `w` is substituted by a *global*
`str.replace` over the whole text — every occurrence of `w`, including
occurrences inside other words, is rewritten, not only the word at its
own position. -/
theorem c6_global_replacement {Node : Type} (rT rS : List Char → Option Node)
    (fX : Node → List Char → List Char) (t : List Char) :
    ((∀ w, w ∈ splitWords (escape t) → w ≠ [] → rT w = none ∧ rS w = none) →
      resolve_implicit_links true rT rS fX t = escape t) ∧
    (∀ w x, links_fold rT rS fX [] (splitWords (escape t)) = [(w, x)] →
      resolve_implicit_links true rT rS fX t = replaceAll w x (escape t)) := by
  constructor
  · intro hnone
    rw [resolve_implicit_links]
    dsimp only
    rw [links_fold_unresolved _ _ _ _ _ hnone]
    rfl
  · intro w x hwx
    rw [resolve_implicit_links]
    dsimp only
    rw [hwx]
    rfl

/-- Witness for `c6_global_replacement`: the single resolvable word `Foo`
of `"Foo Food"` is replaced globally. -/
theorem c6_global_replacement_witness :
    resolve_implicit_links true fooResolve (fun _ => none)
      (fun _ w => '[' :: (w ++ [']'])) "Foo Food".data =
      replaceAll "Foo".data "[Foo]".data (escape "Foo Food".data) :=
  (c6_global_replacement fooResolve (fun _ => none)
      (fun _ w => '[' :: (w ++ [']'])) "Foo Food".data).2
    "Foo".data "[Foo]".data
    (by simp only [escape_eq_cmap]
        simp [links_fold, splitWords, isDelim, fooResolve, cmap, escChar])

/-! ## C1 — section balance (witness) -/

/-- Witness for `c1_heading_section_balance`: the document
`# A … x … ### B` skips from level 1 to level 3. -/
theorem c1_heading_section_balance_witness :
    wfTokens [Token.heading "# A" "A", Token.inline "x",
      Token.heading "### B" "B"] = true ∧
    ([Frag.pOpen, Frag.pClose, Frag.sectionOpen, Frag.title "A",
      Frag.pOpen, Frag.str "x", Frag.pClose, Frag.sectionOpen,
      Frag.sectionOpen, Frag.title "B", Frag.pOpen, Frag.pClose,
      Frag.sectionClose, Frag.sectionClose,
      Frag.sectionClose].count Frag.sectionOpen =
        [Frag.pOpen, Frag.pClose, Frag.sectionOpen, Frag.title "A",
         Frag.pOpen, Frag.str "x", Frag.pClose, Frag.sectionOpen,
         Frag.sectionOpen, Frag.title "B", Frag.pOpen, Frag.pClose,
         Frag.sectionClose, Frag.sectionClose,
         Frag.sectionClose].count Frag.sectionClose ∧
      nonnegFrom 0
        [Frag.pOpen, Frag.pClose, Frag.sectionOpen, Frag.title "A",
         Frag.pOpen, Frag.str "x", Frag.pClose, Frag.sectionOpen,
         Frag.sectionOpen, Frag.title "B", Frag.pOpen, Frag.pClose,
         Frag.sectionClose, Frag.sectionClose, Frag.sectionClose] = true ∧
      (⟨false, 0⟩ : TState).openedSections = 0) :=
  ⟨by decide,
   c1_heading_section_balance
     [Token.heading "# A" "A", Token.inline "x", Token.heading "### B" "B"]
     _ _ (by decide)
     (by simp only [format, process_tokens, process_token, closeSections_eq,
           openSectionsLoop_eq, closeAll_eq]
         rfl)⟩

/-! ## C2 — trailing section closes versus the final paragraph close -/

/-- **C2 (counterexample).**  The spec claims every trailing `</section>`
precedes the final `</p>`.  For the document `# T` the rendered output is
`<p></p><section><title>T</title><p></p></section>`: the last `</p>`
starts at index 35 and the trailing `</section>` at index 39, i.e. the
sections are closed *after* the final paragraph close. -/
theorem c2_sections_close_after_final_paragraph_counterexample :
    format initState [Token.heading "# T" "T"] =
      .ok ([Frag.pOpen, Frag.pClose, Frag.sectionOpen, Frag.title "T",
            Frag.pOpen, Frag.pClose, Frag.sectionClose], ⟨false, 0⟩) ∧
    render [Frag.pOpen, Frag.pClose, Frag.sectionOpen, Frag.title "T",
            Frag.pOpen, Frag.pClose, Frag.sectionClose] =
      "<p></p><section><title>T</title><p></p></section>" ∧
    lastOccur "</p>".data
      "<p></p><section><title>T</title><p></p></section>".data = some 35 ∧
    lastOccur "</section>".data
      "<p></p><section><title>T</title><p></p></section>".data = some 39 ∧
    35 < 39 := by
  refine ⟨?_, by decide, by decide, by decide, by decide⟩
  simp only [format, process_tokens, process_token, closeSections_eq,
    openSectionsLoop_eq, closeAll_eq]
  rfl

/-- Witness for `c2_trailing_closes_follow_final_pclose` at the document
`# T`, which ends with one open section. -/
theorem c2_trailing_closes_follow_final_pclose_witness :
    ∃ inner k,
      [Frag.pOpen, Frag.pClose, Frag.sectionOpen, Frag.title "T",
       Frag.pOpen, Frag.pClose, Frag.sectionClose] =
        Frag.pOpen :: inner ++
          Frag.pClose :: List.replicate k Frag.sectionClose :=
  c2_trailing_closes_follow_final_pclose [Token.heading "# T" "T"] _ _
    (by simp only [format, process_tokens, process_token, closeSections_eq,
          openSectionsLoop_eq, closeAll_eq]
        rfl)

/-! ## C8 — the inside-code flag leaks across documents -/

/-- **C8 (counterexample).**  A first document consisting of an unclosed
code fence leaves `self._processing_code = True`; the next document is
then rendered without its paragraph wrapper (`x` instead of `<p>x</p>`),
so the previous document *does* affect the next document's output, contra
the claim. -/
theorem c8_processing_code_leak_counterexample :
    format initState [Token.codeStart] =
      .ok ([Frag.pOpen, Frag.pClose, Frag.codeOpen none, Frag.pClose],
           ⟨true, 0⟩) ∧
    format ⟨true, 0⟩ [Token.inline "x"] = .ok ([Frag.str "x"], ⟨true, 0⟩) ∧
    format initState [Token.inline "x"] =
      .ok ([Frag.pOpen, Frag.str "x", Frag.pClose], ⟨false, 0⟩) ∧
    ([Frag.str "x"] : List Frag) ≠ [Frag.pOpen, Frag.str "x", Frag.pClose] := by
  refine ⟨?_, ?_, ?_, by decide⟩ <;>
    · simp only [format, process_tokens, process_token, closeAll_eq]
      rfl

/-- Witness for `c8_reset_state_noninterference`: a balanced code block
(`|[ … ]|`) leaves the flag `false`, so the next document is unaffected. -/
theorem c8_reset_state_noninterference_witness :
    format (⟨false, 0⟩ : TState) [Token.newLine] =
      format initState [Token.newLine] :=
  c8_reset_state_noninterference [Token.codeStart, Token.codeEnd]
    [Token.newLine]
    [Frag.pOpen, Frag.pClose, Frag.codeOpen none, Frag.codeClose,
     Frag.pOpen, Frag.pClose] ⟨false, 0⟩
    (by simp only [format, process_tokens, process_token, closeAll_eq]
        rfl)
    rfl

/-! ## C5 — token properties: the winning entry and prefix collisions -/

theorem map_fst_filter_filter {A B : Type} (gd : List (A × B))
    (p q : A → Bool) (f : A → A) :
    (((gd.filter (fun x => p x.1)).filter (fun x => q x.1)).map
        (fun x => (f x.1, x.2))).map Prod.fst =
      (((gd.map Prod.fst).filter p).filter q).map f := by
  induction gd with
  | nil => rfl
  | cons a gd ih =>
      by_cases hp : p a.1 <;> by_cases hq : q a.1 <;>
        simp only [List.map_cons, List.filter_cons, hp, hq, if_true, if_false,
          Bool.false_eq_true, List.map_cons, ih]

set_option maxRecDepth 40000 in
/-- **C5 (counterexample).**  Scanning `"|["` wins the `code_start`
alternative, which owns no named sub-group; yet its properties mapping
contains the winning group's own entry `code_start ↦ "|["` *and*
`None`-valued entries for `with_language` and
`with_language_language_name` — groups of the *other* alternative
`code_start_with_language`, which did not participate, picked up only
because their names start with `"code_start_"`. -/
theorem c5_nonparticipating_entry_counterexample :
    (get_properties "code_start" pipe_groupdict).lookup "with_language" =
      some none ∧
    (get_properties "code_start" pipe_groupdict).lookup
      "with_language_language_name" = some none ∧
    (get_properties "code_start" pipe_groupdict).lookup "code_start" =
      some (some "|[") := by
  refine ⟨?_, ?_, ?_⟩ <;> decide

/-- **C5 (amended).**  For every match whose groupdict ranges over the
compiled grammar's named groups, the properties mapping consists of the
winning alternative's own entry (keyed by the kind, holding its captured
text) followed by one entry for *every* named group of the whole grammar
whose name starts with `"<kind>_"`, keyed by the stripped name — whether
or not the group participated and whether or not it belongs to the
winning alternative. -/
theorem c5_property_keys (name : String) (gd : List (String × Option String))
    (hk : gd.map Prod.fst = docstring_group_names) :
    (get_properties name gd).map Prod.fst =
      name :: (((docstring_group_names.filter (fun g => g ≠ name)).filter
          (fun g => hasPref (name ++ "_").data g.data)).map
        (fun g => String.mk (g.data.drop (name ++ "_").data.length))) := by
  have key := map_fst_filter_filter gd (fun g => decide (g ≠ name))
    (fun g => hasPref (name ++ "_").data g.data)
    (fun g => String.mk (g.data.drop (name ++ "_").data.length))
  rw [hk] at key
  simp only [get_properties, List.map_cons]
  exact congrArg (fun l => name :: l) key

set_option maxRecDepth 40000 in
/-- Witness for `c5_property_keys` at the `"|["` match. -/
theorem c5_property_keys_witness :
    pipe_groupdict.map Prod.fst = docstring_group_names ∧
    (get_properties "code_start" pipe_groupdict).map Prod.fst =
      "code_start" :: (((docstring_group_names.filter
          (fun g => g ≠ "code_start")).filter
            (fun g => hasPref ("code_start" ++ "_").data g.data)).map
        (fun g => String.mk (g.data.drop ("code_start" ++ "_").data.length))) :=
  ⟨by decide, c5_property_keys "code_start" pipe_groupdict (by decide)⟩

/-! ## C10 — the scanner is lossless -/

theorem joinTexts_cons (t : ScanToken) (ts : List ScanToken) :
    joinTexts (t :: ts) = t.2.1 ++ joinTexts ts := rfl

theorem joinTexts_append (xs ys : List ScanToken) :
    joinTexts (xs ++ ys) = joinTexts xs ++ joinTexts ys := by
  induction xs with
  | nil => rfl
  | cons t xs ih =>
      rw [List.cons_append, joinTexts_cons, joinTexts_cons, ih,
        List.append_assoc]

theorem scan_aux_join (text : List Char) (srch : Nat → Option ReMatch)
    (h : ValidSearch text srch) :
    ∀ (fuel pos : Nat), pos ≤ text.length → text.length + 1 - pos ≤ fuel →
      joinTexts (scan_aux text srch fuel pos) = text.drop pos := by
  intro fuel
  induction fuel with
  | zero => intro pos h1 h2; omega
  | succ fuel ih =>
      intro pos hple hfuel
      rw [scan_aux]
      cases hs : srch pos with
      | none =>
          by_cases hlt : pos < text.length
          · rw [if_pos hlt]
            simp [joinTexts]
          · rw [if_neg hlt]
            have hdrop : text.drop pos = [] :=
              List.drop_eq_nil_of_le (by omega)
            rw [hdrop]
            rfl
      | some m =>
          obtain ⟨hm1, hm2, hm3⟩ := h pos m hs
          rw [joinTexts_append, joinTexts_cons,
            ih m.mend (by omega) (by omega)]
          have e1 : (text.drop m.mstart).take (m.mend - m.mstart) ++
              text.drop m.mend = text.drop m.mstart := by
            have hdd : text.drop m.mend =
                (text.drop m.mstart).drop (m.mend - m.mstart) := by
              rw [List.drop_drop]
              congr 1
              omega
            rw [hdd]
            exact List.take_append_drop _ _
          by_cases hgap : pos < m.mstart
          · rw [if_pos hgap]
            have e2 : (text.drop pos).take (m.mstart - pos) ++
                text.drop m.mstart = text.drop pos := by
              have hdd : text.drop m.mstart =
                  (text.drop pos).drop (m.mstart - pos) := by
                rw [List.drop_drop]
                congr 1
                omega
              rw [hdd]
              exact List.take_append_drop _ _
            rw [joinTexts_cons]
            show ((text.drop pos).take (m.mstart - pos) ++ joinTexts []) ++
              ((text.drop m.mstart).take (m.mend - m.mstart) ++
                text.drop m.mend) = text.drop pos
            rw [show joinTexts [] = [] from rfl, List.append_nil, e1, e2]
          · rw [if_neg hgap]
            show joinTexts [] ++
              ((text.drop m.mstart).take (m.mend - m.mstart) ++
                text.drop m.mend) = text.drop pos
            rw [show joinTexts [] = [] from rfl, List.nil_append, e1]
            congr 1
            omega

/-- **C10.**  The scanner is lossless: under any sound search function
(matches start at or after the cursor, are non-empty — as every
alternative of the docstring grammar is — and stay inside the text),
concatenating the `text` fields of the tokens `scan` yields, in order,
reproduces the input exactly. -/
theorem c10_scan_lossless (text : List Char) (srch : Nat → Option ReMatch)
    (h : ValidSearch text srch) :
    joinTexts (scan text srch) = text := by
  have hj := scan_aux_join text srch h (text.length + 1) 0 (by omega) (by omega)
  rw [scan, hj]
  rfl

/-- Witness for `c10_scan_lossless`: scanning `"a|[b"` with the
`code_start` match at span `[1, 3)` reproduces the text
(`other "a"`, `code_start "|["`, `other "b"`). -/
theorem c10_scan_lossless_witness :
    ValidSearch "a|[b".data pipe_srch ∧
    joinTexts (scan "a|[b".data pipe_srch) = "a|[b".data := by
  have hv : ValidSearch "a|[b".data pipe_srch := by
    intro pos m hm
    simp only [pipe_srch] at hm
    split at hm
    · rename_i hle
      injection hm with hm
      subst hm
      exact ⟨hle, by decide, by decide⟩
    · cases hm
  exact ⟨hv, c10_scan_lossless _ _ hv⟩

end Docwriter
